import Mathlib

/-!
# Verification of the halo2 single-pass floor planner

A shallow embedding of `halo2_proofs/src/circuit/floor_planner/single_pass.rs`:
the `SingleChipLayouter` (region placement, constant resolution, table
finalisation) and its parallel batch path `assign_regions`.

Machine integers (`usize`) are modelled as `Nat`; the field `F` is an
arbitrary type parameter (cell values are never interpreted arithmetically
by the floor planner).  The external constraint-system sink is modelled as
a trace of emitted operations (`SinkOp`).  The mutable layouter (`&mut self`
in Rust) becomes explicit state passing; an early `return Err(e)` becomes an
`Option Error` component alongside the state that was already mutated.
-/

namespace Halo2

/-- The kind of a concrete column (`Any` in the source: advice, fixed or
instance). Selectors are not concrete columns; they appear only as a
separate constructor of `RegionColumn`. -/
inductive ColKind where
  | advice
  | fixed
  | instance_
deriving DecidableEq, Repr

/-- A concrete column: kind plus index (`Column<Any>` in the source). -/
structure Col where
  kind : ColKind
  index : Nat
deriving DecidableEq, Repr

/-- The occupancy-tracking key (`RegionColumn` in `circuit/layouter.rs`):
either a concrete column or a selector; selectors occupy a namespace
distinct from same-indexed advice/fixed columns. -/
inductive RegionColumn where
  | col (c : Col)
  | selector (i : Nat)
deriving DecidableEq, Repr

/-- `Cell`: region index, local row offset and column; carries no value.
Resolving its global row requires the region-start sequence. -/
structure Cell where
  region_index : Nat
  row_offset : Nat
  column : Col
deriving DecidableEq, Repr

/-- The error cases of `plonk::Error` reachable from this file. -/
inductive Error where
  | notEnoughColumnsForConstants
  | synthesis
deriving DecidableEq, Repr

/-- One operation of a region-definition callable.  The same list is
interpreted twice: once by the shape probe (pass 1) and once by the
commit view (pass 2), modelling the requirement that the callable be
deterministic across the two passes. -/
inductive RegionOp (F : Type) where
  | assignAdvice (c : Nat) (offset : Nat) (v : F)
  | assignFixed (c : Nat) (offset : Nat) (v : F)
  | enableSelector (s : Nat) (offset : Nat)
  | assignAdviceFromConstant (c : Nat) (offset : Nat) (v : F)
  | constrainEqual (l r : Cell)
  | constrainConstant (v : F) (cell : Cell)
deriving DecidableEq, Repr

/-- An operation forwarded to the external constraint-system sink. -/
inductive SinkOp (F : Type) where
  | assignAdvice (c : Nat) (row : Nat) (v : F)
  | assignFixed (c : Nat) (row : Nat) (v : F)
  | enableSelector (s : Nat) (row : Nat)
  | copy (a : Col) (ra : Nat) (b : Col) (rb : Nat)
  | fillFromRow (c : Nat) (fromRow : Nat) (v : Option F)
deriving DecidableEq, Repr

/-! ## The occupancy map

`self.columns: HashMap<RegionColumn, usize>` is modelled as an association
list where insertion prepends and lookup takes the first hit (last insert
wins), with `unwrap_or(0)` built into the lookup exactly as at the use
sites in the source. -/

/-- The occupancy map type. -/
abbrev ColMap := List (RegionColumn × Nat)

/-- `self.columns.get(column).cloned().unwrap_or(0)`. -/
def lookupCol (m : ColMap) (c : RegionColumn) : Nat :=
  match m.find? (fun p => decide (p.1 = c)) with
  | some p => p.2
  | none => 0

/-- Whether the key is present (`HashMap::get` returning `Some`): used where
the source distinguishes presence, e.g. `entry(..).or_default()`. -/
def memCol (m : ColMap) (c : RegionColumn) : Bool :=
  (m.find? (fun p => decide (p.1 = c))).isSome

/-- `self.columns.insert(column, v)`. -/
def insertCol (m : ColMap) (c : RegionColumn) (v : Nat) : ColMap :=
  (c, v) :: m

/-- Extensional equality of occupancy maps: same occupied-until value for
every column (the only way the source ever reads the map). -/
def EqMap (m₁ m₂ : ColMap) : Prop :=
  ∀ c, lookupCol m₁ c = lookupCol m₂ c

/-! ## Shape probe (pass 1)

`RegionShape` lives in `circuit/layouter.rs`, which is not part of the
sources under verification; it is modelled from the spec. -/

/-- Modelled from the spec: `RegionShape` (`circuit/layouter.rs`, not in
src/) records, for every column-write call (advice write, fixed write,
selector activation, constant-valued write), the column actually touched;
equality and constant-constraint calls are not recorded. -/
def shapeColumns {F : Type} (body : List (RegionOp F)) : List RegionColumn :=
  body.filterMap (fun op =>
    match op with
    | .assignAdvice c _ _ => some (.col ⟨.advice, c⟩)
    | .assignFixed c _ _ => some (.col ⟨.fixed, c⟩)
    | .enableSelector s _ => some (.selector s)
    | .assignAdviceFromConstant c _ _ => some (.col ⟨.advice, c⟩)
    | .constrainEqual _ _ => none
    | .constrainConstant _ _ => none)

/-- Modelled from the spec: `RegionShape::row_count` (`circuit/layouter.rs`,
not in src/) is one plus the maximum offset recorded across all writes,
and 0 for an empty region. -/
def shapeRowCount {F : Type} (body : List (RegionOp F)) : Nat :=
  body.foldl (fun acc op =>
    match op with
    | .assignAdvice _ o _ => max acc (o + 1)
    | .assignFixed _ o _ => max acc (o + 1)
    | .enableSelector _ o => max acc (o + 1)
    | .assignAdviceFromConstant _ o _ => max acc (o + 1)
    | .constrainEqual _ _ => acc
    | .constrainConstant _ _ => acc) 0

/-! ## Layouter state -/

/-- The mutable fields of `SingleChipLayouter` (the sink `cs` is factored
out as the emitted trace). `constants` holds fixed columns, stored as
`Col` with kind `.fixed`; `tableColumns` holds `TableColumn`s, i.e. the
indices of the wrapped fixed columns. -/
structure Layouter (F : Type) where
  constants : List Col
  regions : List Nat
  columns : ColMap
  tableColumns : List Nat
deriving Repr

/-- The `region_start` computation of `assign_region` lines 138-150:
starting from 0, fold `max` of each touched column's occupancy. -/
def regionStartOf (m : ColMap) (shape : List RegionColumn) : Nat :=
  shape.foldl (fun acc c => max acc (lookupCol m c)) 0

/-- Steps 1-5 of `assign_region` (lines 113-165): compute the start, append
it to the region-start sequence, update occupied-until of every touched
column to `region_start + row_count`. -/
def placeRegion {F : Type} (st : Layouter F) (shape : List RegionColumn)
    (rowCount : Nat) : Layouter F :=
  let start := regionStartOf st.columns shape
  { st with
    regions := st.regions ++ [start]
    columns := shape.foldl (fun m c => insertCol m c (start + rowCount)) st.columns }

/-! ## Region commit view (pass 2) -/

/-- `SingleChipLayouterRegion::assign_advice` (lines 514-534): forward to
the sink at global row `regions[region_index] + offset`, return a `Cell`
carrying the local offset. -/
def regionAssignAdvice {F : Type} (regions : List Nat) (ridx : Nat)
    (c : Nat) (offset : Nat) (v : F) : SinkOp F × Cell :=
  (.assignAdvice c (regions.getD ridx 0 + offset) v,
   ⟨ridx, offset, ⟨.advice, c⟩⟩)

/-- `SingleChipLayouterRegion::assign_fixed` (lines 572-591): same shape as
the advice write. -/
def regionAssignFixed {F : Type} (regions : List Nat) (ridx : Nat)
    (c : Nat) (offset : Nat) (v : F) : SinkOp F × Cell :=
  (.assignFixed c (regions.getD ridx 0 + offset) v,
   ⟨ridx, offset, ⟨.fixed, c⟩⟩)

/-- Interpret one region op through `SingleChipLayouterRegion`: the sink
ops it emits and the pending constant entries it buffers. -/
def commitOp {F : Type} (regions : List Nat) (ridx : Nat) (op : RegionOp F) :
    List (SinkOp F) × List (F × Cell) :=
  match op with
  | .assignAdvice c o v => ([(regionAssignAdvice regions ridx c o v).1], [])
  | .assignFixed c o v => ([(regionAssignFixed regions ridx c o v).1], [])
  | .enableSelector s o => ([.enableSelector s (regions.getD ridx 0 + o)], [])
  | .assignAdviceFromConstant c o v =>
      let (sop, cell) := regionAssignAdvice regions ridx c o v
      ([sop], [(v, cell)])
  | .constrainEqual l r =>
      ([.copy l.column (regions.getD l.region_index 0 + l.row_offset)
             r.column (regions.getD r.region_index 0 + r.row_offset)], [])
  | .constrainConstant v cell => ([], [(v, cell)])

/-- Pass 2 over a whole region body: concatenated sink ops and pending
constant entries in program order. -/
def commitRegion {F : Type} (regions : List Nat) (ridx : Nat) :
    List (RegionOp F) → List (SinkOp F) × List (F × Cell)
  | [] => ([], [])
  | op :: rest =>
      let r := commitOp regions ridx op
      let rr := commitRegion regions ridx rest
      (r.1 ++ rr.1, r.2 ++ rr.2)

/-! ## Constant resolution -/

/-- The sink ops emitted for the pending constants, counting rows upward
from `base`: for each entry in order, `assign_fixed` into the constants
column at the counter row, then `copy` to the target cell resolved through
the region-start sequence (lines 197-211). -/
def constOpsFrom {F : Type} (regions : List Nat) (cc : Col) (base : Nat) :
    List (F × Cell) → List (SinkOp F)
  | [] => []
  | (v, cell) :: rest =>
      .assignFixed cc.index base v ::
      .copy cc base cell.column (regions.getD cell.region_index 0 + cell.row_offset) ::
      constOpsFrom regions cc (base + 1) rest

/-- Lines 187-212 of `assign_region` (identical in `assign_regions`,
lines 333-358): if no constants column is configured, error iff anything
is pending; otherwise drain the pending entries into the first constants
column at the shared next-free-row counter, which is the occupancy-map
entry of that column (`entry(..).or_default()`), incremented once per
entry. -/
def resolveConstants {F : Type} (st : Layouter F) (pending : List (F × Cell)) :
    Layouter F × List (SinkOp F) × Option Error :=
  match st.constants with
  | [] =>
      if pending.isEmpty then (st, [], none)
      else (st, [], some .notEnoughColumnsForConstants)
  | cc :: _ =>
      let key : RegionColumn := .col cc
      let base := lookupCol st.columns key
      ({ st with columns := insertCol st.columns key (base + pending.length) },
       constOpsFrom st.regions cc base pending,
       none)

/-! ## `assign_region` and `assign_regions` -/

/-- The result of one layouter call: the state after all mutations that
happened before returning, the sink ops of the region commit pass, the
sink ops of constant resolution, and the error if one was returned. -/
structure StepResult (F : Type) where
  state : Layouter F
  regionOps : List (SinkOp F)
  constOps : List (SinkOp F)
  err : Option Error
deriving Repr

/-- `SingleChipLayouter::assign_region` (lines 105-216): probe the shape,
place the region, run the commit pass, resolve the buffered constants.
On the constants-configuration error the state keeps the mutations already
performed (the early `return` does not roll back `self`). -/
def assignRegion {F : Type} (st : Layouter F) (body : List (RegionOp F)) :
    StepResult F :=
  let st1 := placeRegion st (shapeColumns body) (shapeRowCount body)
  let pr := commitRegion st1.regions st.regions.length body
  let r := resolveConstants st1 pr.2
  ⟨r.1, pr.1, r.2.1, r.2.2⟩

/-- Phase A of `assign_regions` (lines 232-260): probe and place every
sub-region sequentially, in submission order (exactly steps 1-5 of
`assign_region` per callable). -/
def placeAll {F : Type} (st : Layouter F) (bodies : List (List (RegionOp F))) :
    Layouter F :=
  bodies.foldl (fun s b => placeRegion s (shapeColumns b) (shapeRowCount b)) st

/-- The worker commits of `assign_regions` (lines 273-305): the `i`-th
worker runs the commit pass of the `i`-th callable with region index
`region_index + i` against a layouter forked after Phase A; the workers'
sink ops (merged back over disjoint ranges) and their pending constants
are collected in submission order. -/
def commitAll {F : Type} (regions : List Nat) (ridx : Nat) :
    List (List (RegionOp F)) → List (SinkOp F) × List (F × Cell)
  | [] => ([], [])
  | b :: bs =>
      let r := commitRegion regions ridx b
      let rest := commitAll regions (ridx + 1) bs
      (r.1 ++ rest.1, r.2 ++ rest.2)

/-- `SingleChipLayouter::assign_regions` (lines 218-361), the parallel
batch path: Phase A places every sub-region sequentially in submission
order; the commit passes then run against the forked layouters, whose
region-start sequence is the post-Phase-A one; the workers' pending
constants are concatenated in submission order and resolved once at the
end against the parent state. -/
def assignRegions {F : Type} (st : Layouter F) (bodies : List (List (RegionOp F))) :
    StepResult F :=
  let st1 := placeAll st bodies
  let pr := commitAll st1.regions st.regions.length bodies
  let r := resolveConstants st1 pr.2
  ⟨r.1, pr.1, r.2.1, r.2.2⟩

/-! ## Table layouter

`SimpleTableLayouter` (lines 619-688) and `assign_table` (lines 363-424).
`default_and_assigned: HashMap<TableColumn, (DefaultTableValue<F>, Vec<bool>)>`
is modelled as an association list keyed by the table column's fixed-column
index, with fresh entries appended at the end (`entry(..).or_default()`);
the `Value` wrapper inside `DefaultTableValue` is collapsed to the plain
value, so a default is `Option F`. -/

/-- One cell assignment requested through the table handle. -/
structure TableOp (F : Type) where
  col : Nat
  offset : Nat
  v : F
deriving DecidableEq, Repr

/-- Per-table accumulator state: column ↦ (default value, per-row assigned
flags). -/
abbrev TableState (F : Type) := List (Nat × (Option F × List Bool))

/-- Lookup in `default_and_assigned`. -/
def lookupTab {F : Type} (t : TableState F) (c : Nat) : Option (Option F × List Bool) :=
  match t.find? (fun p => decide (p.1 = c)) with
  | some p => some p.2
  | none => none

/-- Store an entry, replacing in place or appending a fresh one. -/
def insertTab {F : Type} (t : TableState F) (c : Nat) (e : Option F × List Bool) :
    TableState F :=
  if (t.find? (fun p => decide (p.1 = c))).isSome then
    t.map (fun p => if p.1 = c then (c, e) else p)
  else
    t ++ [(c, e)]

/-- `SimpleTableLayouter::assign_cell` (lines 648-687): reject a column in
the finalized-table-columns registry before touching anything; otherwise
forward the write to the sink at the raw offset (tables always start at
row 0), record the row-0 value as the column's default (a second row-0
write is a consistency error), and set the coverage flag. -/
def tableAssignCell {F : Type} (used : List Nat) (t : TableState F)
    (op : TableOp F) : TableState F × List (SinkOp F) × Option Error :=
  if op.col ∈ used then (t, [], some .synthesis)
  else
    let entry := (lookupTab t op.col).getD (none, [])
    let sop : SinkOp F := .assignFixed op.col op.offset op.v
    match entry.1 with
    | none =>
        if op.offset = 0 then
          let flags := (entry.2.rightpad (op.offset + 1) false).set op.offset true
          (insertTab t op.col (some op.v, flags), [sop], none)
        else
          let flags := (entry.2.rightpad (op.offset + 1) false).set op.offset true
          (insertTab t op.col (none, flags), [sop], none)
    | some d =>
        if op.offset = 0 then (insertTab t op.col entry, [sop], some .synthesis)
        else
          let flags := (entry.2.rightpad (op.offset + 1) false).set op.offset true
          (insertTab t op.col (some d, flags), [sop], none)

/-- Run the table body through `assign_cell`, halting at the first error. -/
def applyTableOps {F : Type} (used : List Nat) :
    TableState F → List (TableOp F) → TableState F × List (SinkOp F) × Option Error
  | t, [] => (t, [], none)
  | t, op :: rest =>
      let r1 := tableAssignCell used t op
      match r1.2.2 with
      | some e => (r1.1, r1.2.1, some e)
      | none =>
          let r2 := applyTableOps used r1.1 rest
          (r2.1, r1.2.1 ++ r2.2.1, r2.2.2)

/-- Lines 387-404 of `assign_table`: each column reports `Some len` iff all
its coverage flags are set; the reports are reduced to a single value that
survives only if they all agree (`None` for an empty table, as iterator
`reduce` on nothing yields `None`). -/
def firstUnused {F : Type} (t : TableState F) : Option Nat :=
  let vals := t.map (fun e => if e.2.2.all (fun b => b) then some e.2.2.length else none)
  match vals with
  | [] => none
  | v :: vs =>
      vs.foldl (fun acc item =>
        match acc, item with
        | some a, some b => if a = b then some a else none
        | _, _ => none) v

/-- `SingleChipLayouter::assign_table` (lines 363-424): run the body, check
that all touched columns have the same fully covered length, and only then
add them to the finalized-table-columns registry and forward-fill each
column from that length with its default value. -/
def assignTable {F : Type} (st : Layouter F) (ops : List (TableOp F)) :
    Layouter F × List (SinkOp F) × Option Error :=
  let r := applyTableOps st.tableColumns [] ops
  match r.2.2 with
  | some e => (st, r.2.1, some e)
  | none =>
      match firstUnused r.1 with
      | none => (st, r.2.1, some .synthesis)
      | some len =>
          let st' := { st with tableColumns := st.tableColumns ++ r.1.map Prod.fst }
          let fills := r.1.map (fun e => SinkOp.fillFromRow e.1 len e.2.1)
          (st', r.2.1 ++ fills, none)

/-- Run a list of region bodies through sequential `assign_region` calls,
halting at the first error as the enclosing `?` propagation would. -/
def runSeq {F : Type} (st : Layouter F) : List (List (RegionOp F)) → StepResult F
  | [] => ⟨st, [], [], none⟩
  | b :: bs =>
      let r := assignRegion st b
      match r.err with
      | some e => ⟨r.state, r.regionOps, r.constOps, some e⟩
      | none =>
          let r2 := runSeq r.state bs
          ⟨r2.state, r.regionOps ++ r2.regionOps, r.constOps ++ r2.constOps, r2.err⟩

/-! ## Derived definitions used to state the specification claims -/

/-- The number of pending constant entries a region body buffers: one per
constant-valued write and one per explicit constant constraint. -/
def pendingCount {F : Type} (body : List (RegionOp F)) : Nat :=
  body.countP (fun op =>
    match op with
    | .assignAdviceFromConstant _ _ _ => true
    | .constrainConstant _ _ => true
    | _ => false)

/-- The pending constant entries of a body, which do not depend on the
region-start sequence (only on the region's own index). -/
def pendingOf {F : Type} (ridx : Nat) (body : List (RegionOp F)) : List (F × Cell) :=
  (commitRegion [] ridx body).2

/-- The pending constants of a batch, concatenated in submission order with
consecutive region indices. -/
def pendingAll {F : Type} (ridx : Nat) : List (List (RegionOp F)) → List (F × Cell)
  | [] => []
  | b :: bs => pendingOf ridx b ++ pendingAll (ridx + 1) bs

/-- The rows of the fixed-column writes a sink-op trace makes into column
index `ccIdx`, in trace order. -/
def constRows {F : Type} (ops : List (SinkOp F)) (ccIdx : Nat) : List Nat :=
  ops.filterMap (fun op =>
    match op with
    | .assignFixed c row _ => if c = ccIdx then some row else none
    | _ => none)

/-- Whether a list of rows is consecutive (each element one more than its
predecessor). -/
def consecutiveB : List Nat → Bool
  | [] => true
  | [_] => true
  | a :: b :: rest => decide (b = a + 1) && consecutiveB (b :: rest)

/-- A region op whose buffered cell (if any) references a region index
below the bound. -/
def opCellOK {F : Type} (n : Nat) : RegionOp F → Bool
  | .constrainConstant _ cell => decide (cell.region_index < n)
  | _ => true

/-- Every explicitly constrained cell of the `i`-th body references a
region that exists by the time that body's constants are resolved
sequentially (the cells a region handle can ever produce satisfy this by
construction). -/
def CellsBound {F : Type} (n : Nat) : List (List (RegionOp F)) → Prop
  | [] => True
  | b :: bs => (∀ op ∈ b, opCellOK (n + 1) op = true) ∧ CellsBound (n + 1) bs

/-- Pairwise disjointness of the batch's touched-column sets. -/
abbrev DisjointShapes {F : Type} (bodies : List (List (RegionOp F))) : Prop :=
  bodies.Pairwise (fun b₁ b₂ => ∀ c ∈ shapeColumns b₁, c ∉ shapeColumns b₂)

/-- All touched table columns report the same fully covered length `L`:
every coverage flag is set and every flag vector has length `L`. -/
def FullyCovered {F : Type} (t : TableState F) (L : Nat) : Prop :=
  ∀ e ∈ t, e.2.2.all (fun b => b) = true ∧ e.2.2.length = L

/-! ## Concrete example inputs (used by witnesses and counterexamples) -/

/-- A layouter with one configured constants column: fixed column 0. -/
def exConstSt : Layouter Int := ⟨[⟨.fixed, 0⟩], [], [], []⟩

/-- A layouter with no constants column configured. -/
def exNoConstSt : Layouter Int := ⟨[], [], [], []⟩

/-- A region requesting one constant in advice column 1. -/
def exBodyA : List (RegionOp Int) := [.assignAdviceFromConstant 1 0 7]

/-- A region writing plain advice (no constants). -/
def exBodyPlain : List (RegionOp Int) := [.assignAdvice 3 0 4]

/-- A region whose shape touches the constants column (fixed 0) over three
rows and that also requests a constant in advice column 2. -/
def exBodyB : List (RegionOp Int) :=
  [.assignFixed 0 0 5, .assignFixed 0 1 5, .assignFixed 0 2 5,
   .assignAdviceFromConstant 2 0 8]

/-- Table body: column 1 assigned rows 0,1,2; column 2 assigned rows 0,1. -/
def exTableMismatch : List (TableOp Int) :=
  [⟨1, 0, 10⟩, ⟨1, 1, 11⟩, ⟨1, 2, 12⟩, ⟨2, 0, 20⟩, ⟨2, 1, 21⟩]

/-- Table body: columns 1 and 2 both fully assigned rows 0,1. -/
def exTableOK : List (TableOp Int) :=
  [⟨1, 0, 10⟩, ⟨1, 1, 11⟩, ⟨2, 0, 20⟩, ⟨2, 1, 21⟩]

/-! ## Lemmas: occupancy map -/

theorem lookupCol_insert_self (m : ColMap) (c : RegionColumn) (v : Nat) :
    lookupCol (insertCol m c v) c = v := by
  simp [lookupCol, insertCol, List.find?]

theorem lookupCol_insert_ne (m : ColMap) (c c' : RegionColumn) (v : Nat)
    (h : c' ≠ c) : lookupCol (insertCol m c v) c' = lookupCol m c' := by
  have hcc : decide (c = c') = false := decide_eq_false (fun hh => h hh.symm)
  simp [lookupCol, insertCol, List.find?, hcc]

/-! ## Lemmas: the region-start fold -/

theorem regionStartOf_init_le (m : ColMap) :
    ∀ (shape : List RegionColumn) (a : Nat),
      a ≤ shape.foldl (fun acc c => max acc (lookupCol m c)) a
  | [], _ => le_refl _
  | c :: cs, a =>
      le_trans (le_max_left a (lookupCol m c)) (regionStartOf_init_le m cs _)

theorem regionStartOf_le_of_mem_aux (m : ColMap) :
    ∀ (shape : List RegionColumn) (a : Nat) (c : RegionColumn), c ∈ shape →
      lookupCol m c ≤ shape.foldl (fun acc c => max acc (lookupCol m c)) a
  | d :: cs, a, c, h => by
      rcases List.mem_cons.mp h with rfl | h
      · exact le_trans (le_max_right a (lookupCol m c))
          (regionStartOf_init_le m cs _)
      · exact regionStartOf_le_of_mem_aux m cs _ c h

theorem regionStartOf_le_of_mem (m : ColMap) (shape : List RegionColumn)
    (c : RegionColumn) (h : c ∈ shape) :
    lookupCol m c ≤ regionStartOf m shape :=
  regionStartOf_le_of_mem_aux m shape 0 c h

theorem regionStartOf_attained_aux (m : ColMap) :
    ∀ (shape : List RegionColumn) (a : Nat),
      shape.foldl (fun acc c => max acc (lookupCol m c)) a = a ∨
      ∃ c ∈ shape, shape.foldl (fun acc c => max acc (lookupCol m c)) a = lookupCol m c
  | [], a => Or.inl rfl
  | d :: cs, a => by
      rcases regionStartOf_attained_aux m cs (max a (lookupCol m d)) with h | ⟨c, hc, h⟩
      · rcases Nat.le_total (lookupCol m d) a with hle | hle
        · exact Or.inl (by simpa [Nat.max_eq_left hle] using h)
        · exact Or.inr ⟨d, List.mem_cons_self d cs,
            by simpa [Nat.max_eq_right hle] using h⟩
      · exact Or.inr ⟨c, List.mem_cons_of_mem d hc, h⟩

theorem regionStartOf_attained (m : ColMap) (shape : List RegionColumn) :
    regionStartOf m shape = 0 ∨
    ∃ c ∈ shape, regionStartOf m shape = lookupCol m c :=
  regionStartOf_attained_aux m shape 0

theorem regionStartOf_congr_aux {m₁ m₂ : ColMap} :
    ∀ (shape : List RegionColumn) (a : Nat),
      (∀ c ∈ shape, lookupCol m₁ c = lookupCol m₂ c) →
      shape.foldl (fun acc c => max acc (lookupCol m₁ c)) a =
      shape.foldl (fun acc c => max acc (lookupCol m₂ c)) a
  | [], _, _ => rfl
  | d :: cs, a, h => by
      have hd := h d (List.mem_cons_self d cs)
      simpa [hd] using regionStartOf_congr_aux cs (max a (lookupCol m₂ d))
        (fun c hc => h c (List.mem_cons_of_mem d hc))

theorem regionStartOf_congr {m₁ m₂ : ColMap} (shape : List RegionColumn)
    (h : ∀ c ∈ shape, lookupCol m₁ c = lookupCol m₂ c) :
    regionStartOf m₁ shape = regionStartOf m₂ shape :=
  regionStartOf_congr_aux shape 0 h

/-! ## Lemmas: updating occupancy for a whole shape -/

theorem lookupCol_foldl_insert_of_not_mem (v : Nat) :
    ∀ (shape : List RegionColumn) (m : ColMap) (c : RegionColumn), c ∉ shape →
      lookupCol (shape.foldl (fun m c => insertCol m c v) m) c = lookupCol m c
  | [], _, _, _ => rfl
  | d :: cs, m, c, h => by
      have hd : c ≠ d := fun hh => h (hh ▸ List.mem_cons_self d cs)
      have hcs : c ∉ cs := fun hh => h (List.mem_cons_of_mem d hh)
      calc lookupCol ((d :: cs).foldl (fun m c => insertCol m c v) m) c
          = lookupCol (insertCol m d v) c :=
            lookupCol_foldl_insert_of_not_mem v cs (insertCol m d v) c hcs
        _ = lookupCol m c := lookupCol_insert_ne m d c v hd

theorem lookupCol_foldl_insert_of_mem (v : Nat) :
    ∀ (shape : List RegionColumn) (m : ColMap) (c : RegionColumn), c ∈ shape →
      lookupCol (shape.foldl (fun m c => insertCol m c v) m) c = v
  | d :: cs, m, c, h => by
      by_cases hcs : c ∈ cs
      · exact lookupCol_foldl_insert_of_mem v cs (insertCol m d v) c hcs
      · have hd : c = d := by
          rcases List.mem_cons.mp h with hh | hh
          · exact hh
          · exact absurd hh hcs
        subst hd
        calc lookupCol ((c :: cs).foldl (fun m c => insertCol m c v) m) c
            = lookupCol (insertCol m c v) c :=
              lookupCol_foldl_insert_of_not_mem v cs (insertCol m c v) c hcs
          _ = v := lookupCol_insert_self m c v

/-! ## Lemmas: `placeRegion` -/

theorem placeRegion_regions {F : Type} (st : Layouter F) (shape : List RegionColumn)
    (rc : Nat) :
    (placeRegion st shape rc).regions = st.regions ++ [regionStartOf st.columns shape] :=
  rfl

theorem placeRegion_constants {F : Type} (st : Layouter F) (shape : List RegionColumn)
    (rc : Nat) : (placeRegion st shape rc).constants = st.constants := rfl

theorem placeRegion_tableColumns {F : Type} (st : Layouter F)
    (shape : List RegionColumn) (rc : Nat) :
    (placeRegion st shape rc).tableColumns = st.tableColumns := rfl

theorem placeRegion_lookup_mem {F : Type} (st : Layouter F) (shape : List RegionColumn)
    (rc : Nat) (c : RegionColumn) (h : c ∈ shape) :
    lookupCol (placeRegion st shape rc).columns c = regionStartOf st.columns shape + rc :=
  lookupCol_foldl_insert_of_mem _ shape st.columns c h

theorem placeRegion_lookup_not_mem {F : Type} (st : Layouter F)
    (shape : List RegionColumn) (rc : Nat) (c : RegionColumn) (h : c ∉ shape) :
    lookupCol (placeRegion st shape rc).columns c = lookupCol st.columns c :=
  lookupCol_foldl_insert_of_not_mem _ shape st.columns c h

theorem placeRegion_lookup_le {F : Type} (st : Layouter F) (shape : List RegionColumn)
    (rc : Nat) (c : RegionColumn) :
    lookupCol st.columns c ≤ lookupCol (placeRegion st shape rc).columns c := by
  by_cases h : c ∈ shape
  · rw [placeRegion_lookup_mem st shape rc c h]
    exact le_trans (regionStartOf_le_of_mem st.columns shape c h) (Nat.le_add_right _ _)
  · rw [placeRegion_lookup_not_mem st shape rc c h]

/-! ## Lemmas: `resolveConstants` -/

theorem resolveConstants_nil {F : Type} (st : Layouter F) (p : List (F × Cell))
    (h : st.constants = []) :
    resolveConstants st p =
      (st, [], if p.isEmpty then none else some .notEnoughColumnsForConstants) := by
  simp only [resolveConstants, h]
  split <;> rfl

theorem resolveConstants_cons_columns {F : Type} (st : Layouter F)
    (p : List (F × Cell)) (cc : Col) (cs : List Col) (h : st.constants = cc :: cs) :
    (resolveConstants st p).1.columns =
      insertCol st.columns (.col cc) (lookupCol st.columns (.col cc) + p.length) := by
  simp only [resolveConstants, h]

theorem resolveConstants_cons_ops {F : Type} (st : Layouter F)
    (p : List (F × Cell)) (cc : Col) (cs : List Col) (h : st.constants = cc :: cs) :
    (resolveConstants st p).2.1 =
      constOpsFrom st.regions cc (lookupCol st.columns (.col cc)) p := by
  simp only [resolveConstants, h]

theorem resolveConstants_cons_err {F : Type} (st : Layouter F)
    (p : List (F × Cell)) (cc : Col) (cs : List Col) (h : st.constants = cc :: cs) :
    (resolveConstants st p).2.2 = none := by
  simp only [resolveConstants, h]

theorem resolveConstants_regions {F : Type} (st : Layouter F) (p : List (F × Cell)) :
    (resolveConstants st p).1.regions = st.regions := by
  cases h : st.constants with
  | nil => rw [resolveConstants_nil st p h]
  | cons cc cs => simp only [resolveConstants, h]

theorem resolveConstants_constants {F : Type} (st : Layouter F) (p : List (F × Cell)) :
    (resolveConstants st p).1.constants = st.constants := by
  cases h : st.constants with
  | nil => rw [resolveConstants_nil st p h, h]
  | cons cc cs => simp only [resolveConstants, h]

theorem resolveConstants_tableColumns {F : Type} (st : Layouter F)
    (p : List (F × Cell)) :
    (resolveConstants st p).1.tableColumns = st.tableColumns := by
  cases h : st.constants with
  | nil => rw [resolveConstants_nil st p h]
  | cons cc cs => simp only [resolveConstants, h]

theorem resolveConstants_lookup_le {F : Type} (st : Layouter F) (p : List (F × Cell))
    (c : RegionColumn) :
    lookupCol st.columns c ≤ lookupCol (resolveConstants st p).1.columns c := by
  cases h : st.constants with
  | nil => rw [resolveConstants_nil st p h]
  | cons cc cs =>
      rw [resolveConstants_cons_columns st p cc cs h]
      by_cases hc : c = RegionColumn.col cc
      · subst hc
        rw [lookupCol_insert_self]
        exact Nat.le_add_right _ _
      · rw [lookupCol_insert_ne _ _ _ _ hc]

/-! ## Lemmas: the commit pass and pending constants -/

theorem commitOp_pending_irrel {F : Type} (rs₁ rs₂ : List Nat) (ridx : Nat)
    (op : RegionOp F) : (commitOp rs₁ ridx op).2 = (commitOp rs₂ ridx op).2 := by
  cases op <;> rfl

theorem commitRegion_pending_irrel {F : Type} (rs₁ rs₂ : List Nat) (ridx : Nat) :
    ∀ body : List (RegionOp F),
      (commitRegion rs₁ ridx body).2 = (commitRegion rs₂ ridx body).2
  | [] => rfl
  | op :: rest => by
      simp only [commitRegion]
      rw [commitOp_pending_irrel rs₁ rs₂ ridx op,
        commitRegion_pending_irrel rs₁ rs₂ ridx rest]

theorem commitRegion_pending_eq_pendingOf {F : Type} (rs : List Nat) (ridx : Nat)
    (body : List (RegionOp F)) :
    (commitRegion rs ridx body).2 = pendingOf ridx body :=
  commitRegion_pending_irrel rs [] ridx body

theorem pendingOf_length {F : Type} (ridx : Nat) :
    ∀ body : List (RegionOp F), (pendingOf ridx body).length = pendingCount body
  | [] => rfl
  | op :: rest => by
      have ih := pendingOf_length (F := F) ridx rest
      simp only [pendingOf, commitRegion, pendingCount] at ih ⊢
      rw [List.length_append, ih, List.countP_cons]
      cases op <;> simp [commitOp] <;> omega

theorem pendingOf_cells_lt {F : Type} (ridx n : Nat) (hridx : ridx < n) :
    ∀ body : List (RegionOp F),
      (∀ op ∈ body, opCellOK n op = true) →
      ∀ vc ∈ pendingOf (F := F) ridx body, vc.2.region_index < n
  | [], _, vc, hvc => by simp [pendingOf, commitRegion] at hvc
  | op :: rest, h, vc, hvc => by
      simp only [pendingOf, commitRegion, List.mem_append] at hvc
      rcases hvc with hvc | hvc
      · cases op with
        | assignAdviceFromConstant c o v =>
            simp [commitOp, regionAssignAdvice] at hvc
            subst hvc
            exact hridx
        | constrainConstant v cell =>
            have hok := h _ (List.mem_cons_self _ rest)
            simp [opCellOK] at hok
            simp [commitOp] at hvc
            subst hvc
            exact hok
        | assignAdvice c o v => simp [commitOp] at hvc
        | assignFixed c o v => simp [commitOp] at hvc
        | enableSelector s o => simp [commitOp] at hvc
        | constrainEqual l r => simp [commitOp] at hvc
      · exact pendingOf_cells_lt ridx n hridx rest
          (fun op' h' => h op' (List.mem_cons_of_mem _ h')) vc hvc

/-! ## Lemmas: the constant-resolution op stream -/

theorem constOpsFrom_append {F : Type} (regions : List Nat) (cc : Col) :
    ∀ (p q : List (F × Cell)) (base : Nat),
      constOpsFrom regions cc base (p ++ q) =
        constOpsFrom regions cc base p ++ constOpsFrom regions cc (base + p.length) q
  | [], q, base => by simp [constOpsFrom]
  | (v, cell) :: p', q, base => by
      have ih := constOpsFrom_append regions cc p' q (base + 1)
      have harith : base + 1 + p'.length = base + (p'.length + 1) := by omega
      rw [List.cons_append]
      simp only [constOpsFrom, List.length_cons]
      rw [ih, harith]
      simp

theorem constOpsFrom_regions_congr {F : Type} (cc : Col) :
    ∀ (p : List (F × Cell)) (regions₁ regions₂ : List Nat) (base : Nat),
      (∀ vc ∈ p, regions₁.getD (vc.2.region_index) 0 = regions₂.getD (vc.2.region_index) 0) →
      constOpsFrom regions₁ cc base p = constOpsFrom regions₂ cc base p
  | [], _, _, _, _ => rfl
  | (v, cell) :: p', regions₁, regions₂, base, h => by
      simp only [constOpsFrom]
      rw [h (v, cell) (List.mem_cons_self _ _),
        constOpsFrom_regions_congr cc p' regions₁ regions₂ (base + 1)
          (fun vc hvc => h vc (List.mem_cons_of_mem _ hvc))]

theorem constRows_constOpsFrom {F : Type} (regions : List Nat) (cc : Col) :
    ∀ (p : List (F × Cell)) (base : Nat),
      constRows (constOpsFrom regions cc base p) cc.index = List.range' base p.length
  | [], base => rfl
  | (v, cell) :: p', base => by
      have ih := constRows_constOpsFrom regions cc p' (base + 1)
      simp only [constRows] at ih ⊢
      simp [constOpsFrom, List.filterMap_cons, ih, List.range'_succ]

theorem constRows_append {F : Type} (ops₁ ops₂ : List (SinkOp F)) (ccIdx : Nat) :
    constRows (ops₁ ++ ops₂) ccIdx = constRows ops₁ ccIdx ++ constRows ops₂ ccIdx :=
  List.filterMap_append _ _ _

/-! ## Lemmas: `assignRegion` components -/

theorem assignRegion_state {F : Type} (st : Layouter F) (body : List (RegionOp F)) :
    (assignRegion st body).state =
      (resolveConstants (placeRegion st (shapeColumns body) (shapeRowCount body))
        ((commitRegion (placeRegion st (shapeColumns body) (shapeRowCount body)).regions
          st.regions.length body).2)).1 := rfl

theorem assignRegion_err {F : Type} (st : Layouter F) (body : List (RegionOp F)) :
    (assignRegion st body).err =
      (resolveConstants (placeRegion st (shapeColumns body) (shapeRowCount body))
        ((commitRegion (placeRegion st (shapeColumns body) (shapeRowCount body)).regions
          st.regions.length body).2)).2.2 := rfl

theorem assignRegion_constOps {F : Type} (st : Layouter F) (body : List (RegionOp F)) :
    (assignRegion st body).constOps =
      (resolveConstants (placeRegion st (shapeColumns body) (shapeRowCount body))
        ((commitRegion (placeRegion st (shapeColumns body) (shapeRowCount body)).regions
          st.regions.length body).2)).2.1 := rfl

theorem assignRegion_regions {F : Type} (st : Layouter F) (body : List (RegionOp F)) :
    (assignRegion st body).state.regions =
      st.regions ++ [regionStartOf st.columns (shapeColumns body)] := by
  rw [assignRegion_state, resolveConstants_regions, placeRegion_regions]

theorem assignRegion_state_constants {F : Type} (st : Layouter F)
    (body : List (RegionOp F)) :
    (assignRegion st body).state.constants = st.constants := by
  rw [assignRegion_state, resolveConstants_constants, placeRegion_constants]

/-! ## Claim theorems -/

/-- C1: for every region processed by `assign_region`, the region's start
row equals the maximum, over the columns touched by that region's shape
probe, of that column's current occupied-until value (taking 0 for a
column never touched before, hence never less than 0), and this start is
appended to the region-start sequence at the region's index
(`regions.len()` at entry). -/
theorem c1_region_start_is_max_occupancy {F : Type} (st : Layouter F)
    (body : List (RegionOp F)) :
    (assignRegion st body).state.regions =
        st.regions ++ [regionStartOf st.columns (shapeColumns body)]
    ∧ (assignRegion st body).state.regions.getD st.regions.length 0 =
        regionStartOf st.columns (shapeColumns body)
    ∧ (∀ c ∈ shapeColumns body,
        lookupCol st.columns c ≤ regionStartOf st.columns (shapeColumns body))
    ∧ (regionStartOf st.columns (shapeColumns body) = 0 ∨
        ∃ c ∈ shapeColumns body,
          regionStartOf st.columns (shapeColumns body) = lookupCol st.columns c) := by
  refine ⟨assignRegion_regions st body, ?_, ?_, regionStartOf_attained _ _⟩
  · rw [assignRegion_regions st body]
    rw [List.getD_append_right _ _ _ _ (le_refl _)]
    simp
  · exact fun c hc => regionStartOf_le_of_mem st.columns (shapeColumns body) c hc

/-- C5: after a region is placed, every column touched by its shape has its
occupied-until set to `region_start + row_count`; and across a full
`assign_region` call (placement followed by constant resolution) every
column's occupied-until value is monotonically non-decreasing. -/
theorem c5_occupancy_update_and_monotone {F : Type} (st : Layouter F)
    (body : List (RegionOp F)) :
    (∀ c ∈ shapeColumns body,
        lookupCol (placeRegion st (shapeColumns body) (shapeRowCount body)).columns c =
          regionStartOf st.columns (shapeColumns body) + shapeRowCount body)
    ∧ (∀ c, lookupCol st.columns c ≤
        lookupCol (assignRegion st body).state.columns c) := by
  constructor
  · exact fun c hc => placeRegion_lookup_mem st _ _ c hc
  · intro c
    rw [assignRegion_state]
    exact le_trans (placeRegion_lookup_le st _ _ c)
      (resolveConstants_lookup_le _ _ c)

/-- C6: an advice or fixed write through the region commit view with local
offset `o` in region `r` is forwarded to the sink at global row
`region_start(r) + o` (the start looked up in the region-start sequence),
and the returned `Cell` carries the region index, the column, and the
local offset `o` rather than the global row. -/
theorem c6_commit_view_translates_offsets {F : Type} (regions : List Nat)
    (ridx c o : Nat) (v : F) :
    (regionAssignAdvice regions ridx c o v).1 =
        SinkOp.assignAdvice c (regions.getD ridx 0 + o) v
    ∧ (regionAssignAdvice regions ridx c o v).2 =
        ⟨ridx, o, ⟨.advice, c⟩⟩
    ∧ (regionAssignFixed regions ridx c o v).1 =
        SinkOp.assignFixed c (regions.getD ridx 0 + o) v
    ∧ (regionAssignFixed regions ridx c o v).2 =
        ⟨ridx, o, ⟨.fixed, c⟩⟩
    ∧ (commitOp regions ridx (RegionOp.assignAdvice c o v)).1 =
        [SinkOp.assignAdvice c (regions.getD ridx 0 + o) v]
    ∧ (commitOp regions ridx (RegionOp.assignFixed c o v)).1 =
        [SinkOp.assignFixed c (regions.getD ridx 0 + o) v]
    ∧ (regionAssignAdvice regions ridx c o v).2.row_offset = o :=
  ⟨rfl, rfl, rfl, rfl, rfl, rfl, rfl⟩

theorem assignRegion_pending_length {F : Type} (st : Layouter F)
    (body : List (RegionOp F)) :
    ((commitRegion (placeRegion st (shapeColumns body) (shapeRowCount body)).regions
      st.regions.length body).2).length = pendingCount body := by
  rw [commitRegion_pending_eq_pendingOf, pendingOf_length]

/-- C4: if the configured constants-column list is empty and a region's
pending constant entry list is non-empty, `assign_region` fails with
`NotEnoughColumnsForConstants` and writes no constant row to the sink; if
the pending list is also empty, no error is raised. -/
theorem c4_error_when_no_constants_column {F : Type} (st : Layouter F)
    (body : List (RegionOp F)) (h : st.constants = []) :
    (pendingCount body ≠ 0 →
        (assignRegion st body).err = some Error.notEnoughColumnsForConstants
        ∧ (assignRegion st body).constOps = [])
    ∧ (pendingCount body = 0 →
        (assignRegion st body).err = none
        ∧ (assignRegion st body).constOps = []) := by
  have h1 : (placeRegion st (shapeColumns body) (shapeRowCount body)).constants = [] := by
    rw [placeRegion_constants]; exact h
  have hlen := assignRegion_pending_length st body
  have hres := resolveConstants_nil
    (placeRegion st (shapeColumns body) (shapeRowCount body))
    ((commitRegion (placeRegion st (shapeColumns body) (shapeRowCount body)).regions
      st.regions.length body).2) h1
  constructor
  · intro hne
    have hpe : ((commitRegion
        (placeRegion st (shapeColumns body) (shapeRowCount body)).regions
        st.regions.length body).2).isEmpty = false := by
      cases hp : (commitRegion
          (placeRegion st (shapeColumns body) (shapeRowCount body)).regions
          st.regions.length body).2 with
      | nil => rw [hp] at hlen; exact absurd hlen.symm hne
      | cons _ _ => rfl
    rw [assignRegion_err, assignRegion_constOps, hres]
    simp [hpe]
  · intro hz
    have hpe : ((commitRegion
        (placeRegion st (shapeColumns body) (shapeRowCount body)).regions
        st.regions.length body).2).isEmpty = true := by
      cases hp : (commitRegion
          (placeRegion st (shapeColumns body) (shapeRowCount body)).regions
          st.regions.length body).2 with
      | nil => rfl
      | cons _ _ => rw [hp] at hlen; rw [hz] at hlen; simp at hlen
    rw [assignRegion_err, assignRegion_constOps, hres]
    simp [hpe]

/-- Witness for C4 at a concrete input: no constants column configured and
one pending constant entry. -/
theorem c4_error_when_no_constants_column_witness :
    exNoConstSt.constants = []
    ∧ ((pendingCount exBodyA ≠ 0 →
        (assignRegion exNoConstSt exBodyA).err = some Error.notEnoughColumnsForConstants
        ∧ (assignRegion exNoConstSt exBodyA).constOps = [])
      ∧ (pendingCount exBodyA = 0 →
        (assignRegion exNoConstSt exBodyA).err = none
        ∧ (assignRegion exNoConstSt exBodyA).constOps = [])) :=
  ⟨rfl, c4_error_when_no_constants_column exNoConstSt exBodyA rfl⟩

/-- C10: when `assign_region` returns `NotEnoughColumnsForConstants`, the
layouter state has already been mutated: the region's start is appended to
the region-start sequence and every touched column's occupied-until has
been updated to `region_start + row_count`, so the failing region remains
placed. -/
theorem c10_error_is_not_atomic {F : Type} (st : Layouter F)
    (body : List (RegionOp F)) (h : st.constants = [])
    (hp : pendingCount body ≠ 0) :
    (assignRegion st body).err = some Error.notEnoughColumnsForConstants
    ∧ (assignRegion st body).state.regions =
        st.regions ++ [regionStartOf st.columns (shapeColumns body)]
    ∧ (∀ c ∈ shapeColumns body,
        lookupCol (assignRegion st body).state.columns c =
          regionStartOf st.columns (shapeColumns body) + shapeRowCount body) := by
  have h1 : (placeRegion st (shapeColumns body) (shapeRowCount body)).constants = [] := by
    rw [placeRegion_constants]; exact h
  have hres := resolveConstants_nil
    (placeRegion st (shapeColumns body) (shapeRowCount body))
    ((commitRegion (placeRegion st (shapeColumns body) (shapeRowCount body)).regions
      st.regions.length body).2) h1
  have hlen := assignRegion_pending_length st body
  have hpe : ((commitRegion
      (placeRegion st (shapeColumns body) (shapeRowCount body)).regions
      st.regions.length body).2).isEmpty = false := by
    cases hl : (commitRegion
        (placeRegion st (shapeColumns body) (shapeRowCount body)).regions
        st.regions.length body).2 with
    | nil => rw [hl] at hlen; exact absurd hlen.symm hp
    | cons _ _ => rfl
  refine ⟨?_, assignRegion_regions st body, ?_⟩
  · rw [assignRegion_err, hres]
    simp [hpe]
  · intro c hc
    rw [assignRegion_state, hres]
    exact placeRegion_lookup_mem st _ _ c hc

/-- Witness for C10 at the same concrete input. -/
theorem c10_error_is_not_atomic_witness :
    exNoConstSt.constants = [] ∧ pendingCount exBodyA ≠ 0
    ∧ ((assignRegion exNoConstSt exBodyA).err = some Error.notEnoughColumnsForConstants
      ∧ (assignRegion exNoConstSt exBodyA).state.regions =
          exNoConstSt.regions ++ [regionStartOf exNoConstSt.columns (shapeColumns exBodyA)]
      ∧ (∀ c ∈ shapeColumns exBodyA,
          lookupCol (assignRegion exNoConstSt exBodyA).state.columns c =
            regionStartOf exNoConstSt.columns (shapeColumns exBodyA) + shapeRowCount exBodyA)) :=
  ⟨rfl, by decide, c10_error_is_not_atomic exNoConstSt exBodyA rfl (by decide)⟩

/-- C9: the constants next-free-row counter is the occupancy-map entry of
the first configured constants column: resolving `k` pending entries
raises that column's occupied-until by exactly `k`; the constant rows
written are exactly the counter values consumed, all below the updated
entry, so any later region whose shape touches the constants column (and
therefore starts at or above that column's occupancy) is placed strictly
below every constant row written so far; conversely, a region whose shape
touches the constants column advances the occupancy entry — and hence the
row at which the next constant is written — by at least its row count. -/
theorem c9_counter_is_constants_column_occupancy {F : Type} (st : Layouter F)
    (cc : Col) (cs : List Col) (hcc : st.constants = cc :: cs)
    (p : List (F × Cell)) :
    lookupCol (resolveConstants st p).1.columns (.col cc) =
        lookupCol st.columns (.col cc) + p.length
    ∧ constRows ((resolveConstants st p).2.1) cc.index =
        List.range' (lookupCol st.columns (.col cc)) p.length
    ∧ (∀ (m : ColMap) (shape : List RegionColumn),
        RegionColumn.col cc ∈ shape →
        lookupCol (resolveConstants st p).1.columns (.col cc) ≤
          lookupCol m (.col cc) →
        ∀ r ∈ constRows ((resolveConstants st p).2.1) cc.index,
          r < regionStartOf m shape)
    ∧ (∀ (st' : Layouter F) (shape : List RegionColumn) (rc : Nat),
        RegionColumn.col cc ∈ shape →
        lookupCol st'.columns (.col cc) + rc ≤
          lookupCol (placeRegion st' shape rc).columns (.col cc)) := by
  have hcols := resolveConstants_cons_columns st p cc cs hcc
  have hops := resolveConstants_cons_ops st p cc cs hcc
  have hlook : lookupCol (resolveConstants st p).1.columns (.col cc) =
      lookupCol st.columns (.col cc) + p.length := by
    rw [hcols, lookupCol_insert_self]
  have hrows : constRows ((resolveConstants st p).2.1) cc.index =
      List.range' (lookupCol st.columns (.col cc)) p.length := by
    rw [hops, constRows_constOpsFrom]
  refine ⟨hlook, hrows, ?_, ?_⟩
  · intro m shape hmem hle r hr
    rw [hrows] at hr
    have hrlt : r < lookupCol st.columns (.col cc) + p.length :=
      (List.mem_range'_1.mp hr).2
    have : lookupCol st.columns (.col cc) + p.length ≤ lookupCol m (.col cc) := by
      rw [← hlook]; exact hle
    exact lt_of_lt_of_le (lt_of_lt_of_le hrlt this)
      (regionStartOf_le_of_mem m shape _ hmem)
  · intro st' shape rc hmem
    rw [placeRegion_lookup_mem st' shape rc _ hmem]
    exact Nat.add_le_add_right
      (regionStartOf_le_of_mem st'.columns shape _ hmem) rc

/-- Witness for C9 at a concrete input: one configured constants column and
one pending entry. -/
theorem c9_counter_is_constants_column_occupancy_witness :
    exConstSt.constants = Col.mk .fixed 0 :: []
    ∧ (lookupCol (resolveConstants exConstSt
          [((7 : Int), ⟨0, 0, ⟨.advice, 1⟩⟩)]).1.columns (.col ⟨.fixed, 0⟩) =
        lookupCol exConstSt.columns (.col ⟨.fixed, 0⟩) + 1
      ∧ constRows ((resolveConstants exConstSt
          [((7 : Int), ⟨0, 0, ⟨.advice, 1⟩⟩)]).2.1) (Col.mk .fixed 0).index =
        List.range' (lookupCol exConstSt.columns (.col ⟨.fixed, 0⟩)) 1
      ∧ (∀ (m : ColMap) (shape : List RegionColumn),
          RegionColumn.col ⟨.fixed, 0⟩ ∈ shape →
          lookupCol (resolveConstants exConstSt
              [((7 : Int), ⟨0, 0, ⟨.advice, 1⟩⟩)]).1.columns (.col ⟨.fixed, 0⟩) ≤
            lookupCol m (.col ⟨.fixed, 0⟩) →
          ∀ r ∈ constRows ((resolveConstants exConstSt
              [((7 : Int), ⟨0, 0, ⟨.advice, 1⟩⟩)]).2.1) (Col.mk .fixed 0).index,
            r < regionStartOf m shape)
      ∧ (∀ (st' : Layouter Int) (shape : List RegionColumn) (rc : Nat),
          RegionColumn.col ⟨.fixed, 0⟩ ∈ shape →
          lookupCol st'.columns (.col ⟨.fixed, 0⟩) + rc ≤
            lookupCol (placeRegion st' shape rc).columns (.col ⟨.fixed, 0⟩))) :=
  ⟨rfl, by
    have h := c9_counter_is_constants_column_occupancy exConstSt ⟨.fixed, 0⟩ [] rfl
      [((7 : Int), ⟨0, 0, ⟨.advice, 1⟩⟩)]
    simpa using h⟩

/-! ## Lemmas: table finalisation check -/

theorem reduce_foldl_eq_some (L : Nat) :
    ∀ (vs : List (Option Nat)) (v : Option Nat),
      vs.foldl (fun acc item =>
        match acc, item with
        | some a, some b => if a = b then some a else none
        | _, _ => none) v = some L ↔ (v = some L ∧ ∀ x ∈ vs, x = some L)
  | [], v => by simp
  | w :: ws, v => by
      rw [List.foldl_cons, reduce_foldl_eq_some L ws]
      cases v with
      | none => simp
      | some a =>
          cases w with
          | none => simp
          | some b =>
              by_cases hab : a = b
              · subst hab
                simp
              · constructor
                · rintro ⟨h1, _⟩
                  simp [hab] at h1
                · rintro ⟨h1, h2⟩
                  have hb := h2 (some b) (List.mem_cons_self _ _)
                  injection h1 with h1
                  injection hb with hb
                  exact absurd (h1.trans hb.symm) hab

theorem firstUnused_eq_some_iff {F : Type} (t : TableState F) (L : Nat) :
    firstUnused t = some L ↔ (t ≠ [] ∧ FullyCovered t L) := by
  cases t with
  | nil => simp [firstUnused, FullyCovered]
  | cons e es =>
      simp only [firstUnused, List.map_cons]
      rw [reduce_foldl_eq_some]
      constructor
      · rintro ⟨h1, h2⟩
        refine ⟨by simp, ?_⟩
        intro e' he'
        have hrep : (if e'.2.2.all (fun b => b) then some e'.2.2.length else none) =
            some L := by
          rcases List.mem_cons.mp he' with rfl | he'
          · exact h1
          · exact h2 _ (List.mem_map_of_mem _ he')
        constructor
        · by_contra hc
          simp [hc] at hrep
        · by_cases hc : e'.2.2.all (fun b => b) = true
          · rw [if_pos hc] at hrep
            injection hrep
          · simp [hc] at hrep
      · rintro ⟨_, hcov⟩
        have hrep : ∀ e' ∈ e :: es,
            (if e'.2.2.all (fun b => b) then some e'.2.2.length else none) = some L := by
          intro e' he'
          obtain ⟨hall, hlen⟩ := hcov e' he'
          rw [if_pos hall, hlen]
        refine ⟨hrep e (List.mem_cons_self _ _), ?_⟩
        intro x hx
        obtain ⟨e', he', rfl⟩ := List.mem_map.mp hx
        exact hrep e' (List.mem_cons_of_mem _ he')

theorem tableAssignCell_used {F : Type} (used : List Nat) (t : TableState F)
    (op : TableOp F) (h : op.col ∈ used) :
    tableAssignCell used t op = (t, [], some Error.synthesis) := by
  simp only [tableAssignCell, if_pos h]

/-! ## Claim theorems: tables -/

/-- C7: `assign_table` succeeds iff all touched table columns report an
identical, fully covered assigned length (no gap from row 0 up to that
length); on any disagreement or gap it returns the consistency error with
the layouter (including the finalized-table-columns registry) unchanged
and the emitted trace containing exactly the cell writes, no forward-fill. -/
theorem c7_table_completion_consistency {F : Type} (st : Layouter F)
    (ops : List (TableOp F))
    (hrun : (applyTableOps st.tableColumns ([] : TableState F) ops).2.2 = none) :
    ((assignTable st ops).2.2 = none ↔
        ∃ L, (applyTableOps st.tableColumns ([] : TableState F) ops).1 ≠ [] ∧
          FullyCovered (applyTableOps st.tableColumns ([] : TableState F) ops).1 L)
    ∧ ((assignTable st ops).2.2 ≠ none →
        (assignTable st ops).2.2 = some Error.synthesis
        ∧ (assignTable st ops).1 = st
        ∧ (assignTable st ops).2.1 =
            (applyTableOps st.tableColumns ([] : TableState F) ops).2.1) := by
  simp only [assignTable]
  rw [hrun]
  cases hfu : firstUnused (applyTableOps st.tableColumns ([] : TableState F) ops).1 with
  | none =>
      constructor
      · simp only [iff_iff_implies_and_implies]
        constructor
        · intro h; cases h
        · rintro ⟨L, hne, hcov⟩
          rw [(firstUnused_eq_some_iff _ L).mpr ⟨hne, hcov⟩] at hfu
          cases hfu
      · intro _
        exact ⟨rfl, rfl, rfl⟩
  | some L =>
      constructor
      · simp only [iff_iff_implies_and_implies]
        constructor
        · intro _
          obtain ⟨hne, hcov⟩ := (firstUnused_eq_some_iff _ L).mp hfu
          exact ⟨L, hne, hcov⟩
        · intro _; trivial
      · intro hns
        exact absurd rfl hns

/-- Witness for C7: column 1 assigned rows 0..2 and column 2 assigned rows
0..1 — the lengths 3 and 2 disagree, so finalization fails. -/
theorem c7_table_completion_consistency_witness :
    (applyTableOps exNoConstSt.tableColumns ([] : TableState Int)
        exTableMismatch).2.2 = none
    ∧ (((assignTable exNoConstSt exTableMismatch).2.2 = none ↔
        ∃ L, (applyTableOps exNoConstSt.tableColumns ([] : TableState Int)
                exTableMismatch).1 ≠ [] ∧
          FullyCovered (applyTableOps exNoConstSt.tableColumns
            ([] : TableState Int) exTableMismatch).1 L)
      ∧ ((assignTable exNoConstSt exTableMismatch).2.2 ≠ none →
          (assignTable exNoConstSt exTableMismatch).2.2 = some Error.synthesis
          ∧ (assignTable exNoConstSt exTableMismatch).1 = exNoConstSt
          ∧ (assignTable exNoConstSt exTableMismatch).2.1 =
              (applyTableOps exNoConstSt.tableColumns ([] : TableState Int)
                exTableMismatch).2.1)) :=
  ⟨by decide, c7_table_completion_consistency exNoConstSt exTableMismatch (by decide)⟩

/-- C8: a table-cell assignment targeting a column already present in the
finalized-table-columns registry is rejected with the consistency error,
leaving the table state (and the registry, which the cell phase never
writes) unchanged; when a table completes successfully every touched
column is added to the registry, so a finalized table column can never be
assigned by a later table. -/
theorem c8_finalized_table_columns_never_reused {F : Type} (st : Layouter F)
    (ops : List (TableOp F)) :
    (∀ (used : List Nat) (t : TableState F) (op : TableOp F), op.col ∈ used →
        tableAssignCell used t op = (t, [], some Error.synthesis))
    ∧ (∀ e, (applyTableOps st.tableColumns ([] : TableState F) ops).2.2 = some e →
        (assignTable st ops).1 = st)
    ∧ ((assignTable st ops).2.2 = none →
        ∀ c ∈ (applyTableOps st.tableColumns ([] : TableState F) ops).1.map Prod.fst,
          c ∈ (assignTable st ops).1.tableColumns)
    ∧ ((assignTable st ops).2.2 = none →
        ∀ c ∈ (applyTableOps st.tableColumns ([] : TableState F) ops).1.map Prod.fst,
          ∀ (t' : TableState F) (op : TableOp F), op.col = c →
            tableAssignCell (assignTable st ops).1.tableColumns t' op =
              (t', [], some Error.synthesis)) := by
  have hreject : ∀ (used : List Nat) (t : TableState F) (op : TableOp F),
      op.col ∈ used → tableAssignCell used t op = (t, [], some Error.synthesis) :=
    fun used t op h => tableAssignCell_used used t op h
  have hkeep : ∀ e, (applyTableOps st.tableColumns ([] : TableState F) ops).2.2 = some e →
      (assignTable st ops).1 = st := by
    intro e he
    simp only [assignTable]
    rw [he]
  have hreg : (assignTable st ops).2.2 = none →
      ∀ c ∈ (applyTableOps st.tableColumns ([] : TableState F) ops).1.map Prod.fst,
        c ∈ (assignTable st ops).1.tableColumns := by
    intro hok c hc
    cases hcells : (applyTableOps st.tableColumns ([] : TableState F) ops).2.2 with
    | some e =>
        exfalso
        simp only [assignTable] at hok
        rw [hcells] at hok
        cases hok
    | none =>
        cases hfu : firstUnused (applyTableOps st.tableColumns
            ([] : TableState F) ops).1 with
        | none =>
            exfalso
            simp only [assignTable] at hok
            rw [hcells] at hok
            simp only at hok
            rw [hfu] at hok
            cases hok
        | some L =>
            simp only [assignTable]
            rw [hcells]
            simp only
            rw [hfu]
            exact List.mem_append_right _ hc
  refine ⟨hreject, hkeep, hreg, ?_⟩
  intro hok c hc t' op hcol
  exact hreject _ t' op (hcol ▸ hreg hok c hc)

/-! ## Lemmas: `placeAll`, `commitAll`, `runSeq` -/

theorem placeAll_constants {F : Type} :
    ∀ (bodies : List (List (RegionOp F))) (st : Layouter F),
      (placeAll st bodies).constants = st.constants
  | [], _ => rfl
  | b :: bs, st => by
      rw [show placeAll st (b :: bs) =
          placeAll (placeRegion st (shapeColumns b) (shapeRowCount b)) bs from rfl,
        placeAll_constants bs, placeRegion_constants]

theorem placeAll_regions_append {F : Type} :
    ∀ (bodies : List (List (RegionOp F))) (st : Layouter F),
      ∃ ext, (placeAll st bodies).regions = st.regions ++ ext
  | [], st => ⟨[], (List.append_nil _).symm⟩
  | b :: bs, st => by
      obtain ⟨ext, h⟩ := placeAll_regions_append bs
        (placeRegion st (shapeColumns b) (shapeRowCount b))
      refine ⟨regionStartOf st.columns (shapeColumns b) :: ext, ?_⟩
      rw [show placeAll st (b :: bs) =
          placeAll (placeRegion st (shapeColumns b) (shapeRowCount b)) bs from rfl,
        h, placeRegion_regions, List.append_assoc]
      rfl

theorem placeAll_lookup_avoid {F : Type} (key : RegionColumn) :
    ∀ (bodies : List (List (RegionOp F))) (st : Layouter F),
      (∀ b ∈ bodies, key ∉ shapeColumns b) →
      lookupCol (placeAll st bodies).columns key = lookupCol st.columns key
  | [], _, _ => rfl
  | b :: bs, st, havoid => by
      rw [show placeAll st (b :: bs) =
          placeAll (placeRegion st (shapeColumns b) (shapeRowCount b)) bs from rfl,
        placeAll_lookup_avoid key bs _
          (fun b' hb' => havoid b' (List.mem_cons_of_mem _ hb'))]
      exact placeRegion_lookup_not_mem st _ _ key (havoid b (List.mem_cons_self _ _))

theorem placeRegion_congr_offkey {F : Type} (st₁ st₂ : Layouter F)
    (key : RegionColumn) (shape : List RegionColumn) (rc : Nat)
    (hreg : st₁.regions = st₂.regions)
    (hk : ∀ c, c ≠ key → lookupCol st₁.columns c = lookupCol st₂.columns c)
    (hmem : key ∉ shape) :
    (placeRegion st₁ shape rc).regions = (placeRegion st₂ shape rc).regions
    ∧ (∀ c, c ≠ key →
        lookupCol (placeRegion st₁ shape rc).columns c =
          lookupCol (placeRegion st₂ shape rc).columns c) := by
  have hstart : regionStartOf st₁.columns shape = regionStartOf st₂.columns shape :=
    regionStartOf_congr shape (fun c hc => hk c (fun h => hmem (h ▸ hc)))
  constructor
  · rw [placeRegion_regions, placeRegion_regions, hreg, hstart]
  · intro c hc
    by_cases hcs : c ∈ shape
    · rw [placeRegion_lookup_mem _ _ _ _ hcs, placeRegion_lookup_mem _ _ _ _ hcs,
        hstart]
    · rw [placeRegion_lookup_not_mem _ _ _ _ hcs,
        placeRegion_lookup_not_mem _ _ _ _ hcs]
      exact hk c hc

theorem placeAll_congr_offkey {F : Type} (key : RegionColumn) :
    ∀ (bodies : List (List (RegionOp F))) (st₁ st₂ : Layouter F),
      st₁.regions = st₂.regions →
      (∀ c, c ≠ key → lookupCol st₁.columns c = lookupCol st₂.columns c) →
      (∀ b ∈ bodies, key ∉ shapeColumns b) →
      (placeAll st₁ bodies).regions = (placeAll st₂ bodies).regions
      ∧ (∀ c, c ≠ key →
          lookupCol (placeAll st₁ bodies).columns c =
            lookupCol (placeAll st₂ bodies).columns c)
  | [], _, _, hreg, hk, _ => ⟨hreg, hk⟩
  | b :: bs, st₁, st₂, hreg, hk, havoid => by
      obtain ⟨hreg', hk'⟩ := placeRegion_congr_offkey st₁ st₂ key (shapeColumns b)
        (shapeRowCount b) hreg hk (havoid b (List.mem_cons_self _ _))
      exact placeAll_congr_offkey key bs _ _ hreg' hk'
        (fun b' hb' => havoid b' (List.mem_cons_of_mem _ hb'))

theorem commitAll_pending {F : Type} :
    ∀ (bodies : List (List (RegionOp F))) (regions : List Nat) (ridx : Nat),
      (commitAll regions ridx bodies).2 = pendingAll ridx bodies
  | [], _, _ => rfl
  | b :: bs, regions, ridx => by
      simp only [commitAll, pendingAll]
      rw [commitRegion_pending_eq_pendingOf, commitAll_pending bs regions (ridx + 1)]

theorem pendingAll_length {F : Type} :
    ∀ (bodies : List (List (RegionOp F))) (ridx : Nat),
      (pendingAll (F := F) ridx bodies).length = (bodies.map pendingCount).sum
  | [], _ => rfl
  | b :: bs, ridx => by
      simp only [pendingAll, List.map_cons, List.sum_cons, List.length_append]
      rw [pendingOf_length, pendingAll_length bs (ridx + 1)]

theorem runSeq_cons_ok {F : Type} (st : Layouter F) (b : List (RegionOp F))
    (bs : List (List (RegionOp F))) (h : (assignRegion st b).err = none) :
    runSeq st (b :: bs) =
      ⟨(runSeq (assignRegion st b).state bs).state,
       (assignRegion st b).regionOps ++ (runSeq (assignRegion st b).state bs).regionOps,
       (assignRegion st b).constOps ++ (runSeq (assignRegion st b).state bs).constOps,
       (runSeq (assignRegion st b).state bs).err⟩ := by
  simp only [runSeq]
  rw [h]

theorem runSeq_no_constants {F : Type} :
    ∀ (bodies : List (List (RegionOp F))) (st : Layouter F),
      st.constants = [] →
      (∀ b ∈ bodies, pendingCount b = 0) →
      (runSeq st bodies).err = none
      ∧ (runSeq st bodies).state = placeAll st bodies
      ∧ (runSeq st bodies).constOps = []
  | [], st, _, _ => ⟨rfl, rfl, rfl⟩
  | b :: bs, st, hcc, hpend => by
      have h1 : (placeRegion st (shapeColumns b) (shapeRowCount b)).constants = [] := by
        rw [placeRegion_constants]; exact hcc
      have hlen := assignRegion_pending_length st b
      have hzero : pendingCount b = 0 := hpend b (List.mem_cons_self _ _)
      have hpnil : (commitRegion
          (placeRegion st (shapeColumns b) (shapeRowCount b)).regions
          st.regions.length b).2 = [] := by
        rw [← List.length_eq_zero, hlen, hzero]
      have hres := resolveConstants_nil
        (placeRegion st (shapeColumns b) (shapeRowCount b))
        ((commitRegion (placeRegion st (shapeColumns b) (shapeRowCount b)).regions
          st.regions.length b).2) h1
      have herr : (assignRegion st b).err = none := by
        rw [assignRegion_err, hres, hpnil]
        rfl
      have hst : (assignRegion st b).state =
          placeRegion st (shapeColumns b) (shapeRowCount b) := by
        rw [assignRegion_state, hres]
      have hco : (assignRegion st b).constOps = [] := by
        rw [assignRegion_constOps, hres]
      obtain ⟨ih1, ih2, ih3⟩ := runSeq_no_constants bs
        (placeRegion st (shapeColumns b) (shapeRowCount b)) h1
        (fun b' hb' => hpend b' (List.mem_cons_of_mem _ hb'))
      rw [runSeq_cons_ok st b bs herr, hst]
      exact ⟨ih1, ih2, by rw [hco, ih3]; rfl⟩

/-- The sequential run, in deferred canonical form: when a constants column
is configured and no region's shape touches it, `runSeq` places exactly as
Phase A would, and its constant resolutions concatenate into one resolution
of all pending entries against the final region-start sequence. -/
theorem runSeq_deferred {F : Type} (cc : Col) (cs : List Col) :
    ∀ (bodies : List (List (RegionOp F))) (st : Layouter F),
      st.constants = cc :: cs →
      (∀ b ∈ bodies, RegionColumn.col cc ∉ shapeColumns b) →
      CellsBound st.regions.length bodies →
      (runSeq st bodies).err = none
      ∧ (runSeq st bodies).state.regions = (placeAll st bodies).regions
      ∧ (runSeq st bodies).state.constants = st.constants
      ∧ (∀ c, c ≠ RegionColumn.col cc →
          lookupCol (runSeq st bodies).state.columns c =
            lookupCol (placeAll st bodies).columns c)
      ∧ lookupCol (runSeq st bodies).state.columns (.col cc) =
          lookupCol st.columns (.col cc) +
            (pendingAll st.regions.length bodies).length
      ∧ (runSeq st bodies).constOps =
          constOpsFrom (placeAll st bodies).regions cc
            (lookupCol st.columns (.col cc)) (pendingAll st.regions.length bodies)
  | [], st, hcc, _, _ =>
      ⟨rfl, rfl, rfl, fun _ _ => rfl, by simp [pendingAll, runSeq], rfl⟩
  | b :: bs, st, hcc, havoid, hcells => by
      have h1 : (placeRegion st (shapeColumns b) (shapeRowCount b)).constants =
          cc :: cs := by rw [placeRegion_constants]; exact hcc
      have hkey_b : RegionColumn.col cc ∉ shapeColumns b :=
        havoid b (List.mem_cons_self _ _)
      have hB : lookupCol (placeRegion st (shapeColumns b) (shapeRowCount b)).columns
          (.col cc) = lookupCol st.columns (.col cc) :=
        placeRegion_lookup_not_mem st _ _ _ hkey_b
      have hp : (commitRegion
          (placeRegion st (shapeColumns b) (shapeRowCount b)).regions
          st.regions.length b).2 = pendingOf st.regions.length b :=
        commitRegion_pending_eq_pendingOf _ _ _
      have herr : (assignRegion st b).err = none := by
        rw [assignRegion_err, resolveConstants_cons_err _ _ cc cs h1]
      have hscols : (assignRegion st b).state.columns =
          insertCol (placeRegion st (shapeColumns b) (shapeRowCount b)).columns
            (.col cc)
            (lookupCol (placeRegion st (shapeColumns b) (shapeRowCount b)).columns
              (.col cc) +
              ((commitRegion
                (placeRegion st (shapeColumns b) (shapeRowCount b)).regions
                st.regions.length b).2).length) := by
        rw [assignRegion_state, resolveConstants_cons_columns _ _ cc cs h1]
      have hsregs : (assignRegion st b).state.regions =
          (placeRegion st (shapeColumns b) (shapeRowCount b)).regions := by
        rw [assignRegion_state, resolveConstants_regions]
      have hsconsts : (assignRegion st b).state.constants = cc :: cs := by
        rw [assignRegion_state, resolveConstants_constants, placeRegion_constants,
          hcc]
      have hconstOps : (assignRegion st b).constOps =
          constOpsFrom (placeRegion st (shapeColumns b) (shapeRowCount b)).regions cc
            (lookupCol (placeRegion st (shapeColumns b) (shapeRowCount b)).columns
              (.col cc))
            ((commitRegion (placeRegion st (shapeColumns b) (shapeRowCount b)).regions
              st.regions.length b).2) := by
        rw [assignRegion_constOps, resolveConstants_cons_ops _ _ cc cs h1]
      have hst1len : (placeRegion st (shapeColumns b) (shapeRowCount b)).regions.length =
          st.regions.length + 1 := by
        rw [placeRegion_regions, List.length_append]
        rfl
      have hslen : (assignRegion st b).state.regions.length = st.regions.length + 1 := by
        rw [hsregs, hst1len]
      have hcells' : (∀ op ∈ b, opCellOK (st.regions.length + 1) op = true) ∧
          CellsBound (st.regions.length + 1) bs := hcells
      have ih := runSeq_deferred cc cs bs (assignRegion st b).state hsconsts
        (fun b' hb' => havoid b' (List.mem_cons_of_mem _ hb'))
        (by rw [hslen]; exact hcells'.2)
      obtain ⟨ih1, ih2, ih3, ih4, ih5, ih6⟩ := ih
      have hoffkey : ∀ c, c ≠ RegionColumn.col cc →
          lookupCol (assignRegion st b).state.columns c =
            lookupCol (placeRegion st (shapeColumns b) (shapeRowCount b)).columns c := by
        intro c hc
        rw [hscols, lookupCol_insert_ne _ _ _ _ hc]
      obtain ⟨hRegsEq, hColsEq⟩ := placeAll_congr_offkey (RegionColumn.col cc) bs
        (assignRegion st b).state (placeRegion st (shapeColumns b) (shapeRowCount b))
        hsregs hoffkey (fun b' hb' => havoid b' (List.mem_cons_of_mem _ hb'))
      have hatkey : lookupCol (assignRegion st b).state.columns (.col cc) =
          lookupCol st.columns (.col cc) + (pendingOf st.regions.length b).length := by
        rw [hscols, lookupCol_insert_self, hB, hp]
      rw [runSeq_cons_ok st b bs herr]
      refine ⟨ih1, ?_, ?_, ?_, ?_, ?_⟩
      · exact ih2.trans hRegsEq
      · exact ih3.trans (hsconsts.trans hcc.symm)
      · intro c hc
        exact (ih4 c hc).trans (hColsEq c hc)
      · show lookupCol (runSeq (assignRegion st b).state bs).state.columns (.col cc) =
          lookupCol st.columns (.col cc) +
            (pendingAll st.regions.length (b :: bs)).length
        rw [ih5, hatkey, hslen]
        simp only [pendingAll, List.length_append]
        omega
      · show (assignRegion st b).constOps ++
            (runSeq (assignRegion st b).state bs).constOps =
          constOpsFrom (placeAll st (b :: bs)).regions cc
            (lookupCol st.columns (.col cc)) (pendingAll st.regions.length (b :: bs))
        have hsplit : pendingAll st.regions.length (b :: bs) =
            pendingOf st.regions.length b ++
              pendingAll (st.regions.length + 1) bs := rfl
        have hplaceAll : placeAll st (b :: bs) =
            placeAll (placeRegion st (shapeColumns b) (shapeRowCount b)) bs := rfl
        rw [hsplit, hplaceAll, constOpsFrom_append]
        obtain ⟨ext, hext⟩ := placeAll_regions_append bs
          (placeRegion st (shapeColumns b) (shapeRowCount b))
        have hbound := pendingOf_cells_lt st.regions.length (st.regions.length + 1)
          (Nat.lt_succ_self _) b hcells'.1
        have hpiece1 : (assignRegion st b).constOps =
            constOpsFrom
              (placeAll (placeRegion st (shapeColumns b) (shapeRowCount b)) bs).regions
              cc (lookupCol st.columns (.col cc)) (pendingOf st.regions.length b) := by
          rw [hconstOps, hB, hp]
          refine constOpsFrom_regions_congr cc _ _ _ _ ?_
          intro vc hvc
          rw [hext]
          rw [List.getD_append]
          rw [hst1len]
          exact hbound vc hvc
        have hpiece2 : (runSeq (assignRegion st b).state bs).constOps =
            constOpsFrom
              (placeAll (placeRegion st (shapeColumns b) (shapeRowCount b)) bs).regions
              cc (lookupCol st.columns (.col cc) + (pendingOf st.regions.length b).length)
              (pendingAll (st.regions.length + 1) bs) := by
          rw [ih6, hRegsEq, hatkey, hslen]
        rw [hpiece1, hpiece2]
  termination_by bodies => bodies.length

/-- The parallel batch path, in the same canonical form. -/
theorem assignRegions_deferred {F : Type} (cc : Col) (cs : List Col)
    (bodies : List (List (RegionOp F))) (st : Layouter F)
    (hcc : st.constants = cc :: cs)
    (havoid : ∀ b ∈ bodies, RegionColumn.col cc ∉ shapeColumns b) :
    (assignRegions st bodies).err = none
    ∧ (assignRegions st bodies).state.regions = (placeAll st bodies).regions
    ∧ (∀ c, c ≠ RegionColumn.col cc →
        lookupCol (assignRegions st bodies).state.columns c =
          lookupCol (placeAll st bodies).columns c)
    ∧ lookupCol (assignRegions st bodies).state.columns (.col cc) =
        lookupCol st.columns (.col cc) +
          (pendingAll st.regions.length bodies).length
    ∧ (assignRegions st bodies).constOps =
        constOpsFrom (placeAll st bodies).regions cc
          (lookupCol st.columns (.col cc)) (pendingAll st.regions.length bodies) := by
  have h1 : (placeAll st bodies).constants = cc :: cs := by
    rw [placeAll_constants]; exact hcc
  have hB : lookupCol (placeAll st bodies).columns (.col cc) =
      lookupCol st.columns (.col cc) :=
    placeAll_lookup_avoid _ bodies st havoid
  have hp : (commitAll (placeAll st bodies).regions st.regions.length bodies).2 =
      pendingAll st.regions.length bodies :=
    commitAll_pending bodies _ _
  refine ⟨?_, ?_, ?_, ?_, ?_⟩
  · show (resolveConstants (placeAll st bodies)
        (commitAll (placeAll st bodies).regions st.regions.length bodies).2).2.2 = none
    rw [resolveConstants_cons_err _ _ cc cs h1]
  · show (resolveConstants (placeAll st bodies)
        (commitAll (placeAll st bodies).regions st.regions.length bodies).2).1.regions =
      (placeAll st bodies).regions
    rw [resolveConstants_regions]
  · intro c hc
    show lookupCol (resolveConstants (placeAll st bodies)
        (commitAll (placeAll st bodies).regions st.regions.length bodies).2).1.columns c =
      lookupCol (placeAll st bodies).columns c
    rw [resolveConstants_cons_columns _ _ cc cs h1, lookupCol_insert_ne _ _ _ _ hc]
  · show lookupCol (resolveConstants (placeAll st bodies)
        (commitAll (placeAll st bodies).regions st.regions.length bodies).2).1.columns
        (.col cc) =
      lookupCol st.columns (.col cc) + (pendingAll st.regions.length bodies).length
    rw [resolveConstants_cons_columns _ _ cc cs h1, lookupCol_insert_self, hB, hp]
  · show (resolveConstants (placeAll st bodies)
        (commitAll (placeAll st bodies).regions st.regions.length bodies).2).2.1 =
      constOpsFrom (placeAll st bodies).regions cc
        (lookupCol st.columns (.col cc)) (pendingAll st.regions.length bodies)
    rw [resolveConstants_cons_ops _ _ cc cs h1, hB, hp]

/-- The parallel batch path with no constants column and no pending
constants: pure placement. -/
theorem assignRegions_no_constants {F : Type} (bodies : List (List (RegionOp F)))
    (st : Layouter F) (hcc : st.constants = [])
    (hpend : ∀ b ∈ bodies, pendingCount b = 0) :
    (assignRegions st bodies).err = none
    ∧ (assignRegions st bodies).state = placeAll st bodies
    ∧ (assignRegions st bodies).constOps = [] := by
  have h1 : (placeAll st bodies).constants = [] := by
    rw [placeAll_constants]; exact hcc
  have hpnil : (commitAll (placeAll st bodies).regions st.regions.length bodies).2 =
      [] := by
    rw [commitAll_pending]
    rw [← List.length_eq_zero, pendingAll_length]
    have : ∀ bs : List (List (RegionOp F)), (∀ b ∈ bs, pendingCount b = 0) →
        (bs.map pendingCount).sum = 0 := by
      intro bs hbs
      induction bs with
      | nil => rfl
      | cons x xs ih =>
          simp only [List.map_cons, List.sum_cons]
          rw [hbs x (List.mem_cons_self _ _), ih
            (fun b' hb' => hbs b' (List.mem_cons_of_mem _ hb'))]
    exact this bodies hpend
  have hres := resolveConstants_nil (placeAll st bodies)
    ((commitAll (placeAll st bodies).regions st.regions.length bodies).2) h1
  refine ⟨?_, ?_, ?_⟩
  · show (resolveConstants (placeAll st bodies)
        (commitAll (placeAll st bodies).regions st.regions.length bodies).2).2.2 = none
    rw [hres, hpnil]
    rfl
  · show (resolveConstants (placeAll st bodies)
        (commitAll (placeAll st bodies).regions st.regions.length bodies).2).1 =
      placeAll st bodies
    rw [hres]
  · show (resolveConstants (placeAll st bodies)
        (commitAll (placeAll st bodies).regions st.regions.length bodies).2).2.1 = []
    rw [hres]

/-- Counterexample to C2 as stated: a batch of two regions with disjoint
touched-column sets (the first requests a constant, the second's shape
touches the configured constants column) for which the parallel path and
the sequential path disagree on the second region's start (0 versus 1) and
on the constants-column rows (the sequential path interleaves constant
resolution between regions, the parallel path defers it past Phase A). -/
theorem c2_parallel_equivalence_counterexample :
    DisjointShapes [exBodyA, exBodyB]
    ∧ (runSeq exConstSt [exBodyA, exBodyB]).err = none
    ∧ (assignRegions exConstSt [exBodyA, exBodyB]).err = none
    ∧ (runSeq exConstSt [exBodyA, exBodyB]).state.regions = [0, 1]
    ∧ (assignRegions exConstSt [exBodyA, exBodyB]).state.regions = [0, 0]
    ∧ constRows (runSeq exConstSt [exBodyA, exBodyB]).constOps 0 = [0, 4]
    ∧ constRows (assignRegions exConstSt [exBodyA, exBodyB]).constOps 0 = [3, 4]
    ∧ (runSeq exConstSt [exBodyA, exBodyB]).state.regions ≠
        (assignRegions exConstSt [exBodyA, exBodyB]).state.regions
    ∧ (runSeq exConstSt [exBodyA, exBodyB]).constOps ≠
        (assignRegions exConstSt [exBodyA, exBodyB]).constOps := by
  refine ⟨by decide, by decide, by decide, by decide, by decide, by decide, by decide,
    by decide, by decide⟩

/-- C2 (amended): for a batch of regions touching disjoint column sets,
none of which touches the configured constants column (and with no pending
constants when no constants column is configured; cells in explicit
constant constraints referencing only regions already placed), the
parallel path yields the same `region_start` values, the same per-column
occupied-until map, and the same constants-column contents (rows, values
and equality constraints) as running the same callables sequentially
through `assign_region` in submission order. -/
theorem c2_parallel_equivalence_amended {F : Type} (st : Layouter F)
    (bodies : List (List (RegionOp F)))
    (_hdisj : DisjointShapes bodies)
    (havoid : ∀ cc cs, st.constants = cc :: cs →
        ∀ b ∈ bodies, RegionColumn.col cc ∉ shapeColumns b)
    (hpend : st.constants = [] → ∀ b ∈ bodies, pendingCount b = 0)
    (hcells : CellsBound st.regions.length bodies) :
    (runSeq st bodies).err = none
    ∧ (assignRegions st bodies).err = none
    ∧ (runSeq st bodies).state.regions = (assignRegions st bodies).state.regions
    ∧ EqMap (runSeq st bodies).state.columns (assignRegions st bodies).state.columns
    ∧ (runSeq st bodies).constOps = (assignRegions st bodies).constOps := by
  cases hc : st.constants with
  | nil =>
      obtain ⟨s1, s2, s3⟩ := runSeq_no_constants bodies st hc (hpend hc)
      obtain ⟨p1, p2, p3⟩ := assignRegions_no_constants bodies st hc (hpend hc)
      refine ⟨s1, p1, ?_, ?_, ?_⟩
      · rw [s2, p2]
      · intro c; rw [s2, p2]
      · rw [s3, p3]
  | cons cc cs =>
      obtain ⟨s1, s2, s3, s4, s5, s6⟩ :=
        runSeq_deferred cc cs bodies st hc (havoid cc cs hc) hcells
      obtain ⟨p1, p2, p3, p4, p5⟩ :=
        assignRegions_deferred cc cs bodies st hc (havoid cc cs hc)
      refine ⟨s1, p1, ?_, ?_, ?_⟩
      · rw [s2, p2]
      · intro c
        by_cases hkey : c = RegionColumn.col cc
        · subst hkey; rw [s5, p4]
        · rw [s4 c hkey, p3 c hkey]
      · rw [s6, p5]

/-- Witness for the amended C2 at a concrete input: two disjoint regions,
neither touching the constants column, the first requesting a constant. -/
theorem c2_parallel_equivalence_amended_witness :
    DisjointShapes [exBodyA, exBodyPlain]
    ∧ ((runSeq exConstSt [exBodyA, exBodyPlain]).err = none
      ∧ (assignRegions exConstSt [exBodyA, exBodyPlain]).err = none
      ∧ (runSeq exConstSt [exBodyA, exBodyPlain]).state.regions =
          (assignRegions exConstSt [exBodyA, exBodyPlain]).state.regions
      ∧ EqMap (runSeq exConstSt [exBodyA, exBodyPlain]).state.columns
          (assignRegions exConstSt [exBodyA, exBodyPlain]).state.columns
      ∧ (runSeq exConstSt [exBodyA, exBodyPlain]).constOps =
          (assignRegions exConstSt [exBodyA, exBodyPlain]).constOps) :=
  ⟨by decide,
   c2_parallel_equivalence_amended exConstSt [exBodyA, exBodyPlain]
     (by decide)
     (by
       intro cc cs h
       injection h with h1 h2
       subst h1
       decide)
     (by intro h; exact absurd h (by decide))
     ⟨by decide, by decide, trivial⟩⟩

/-! ## Lemmas: consecutive rows and the per-entry resolution stream -/

theorem consecutiveB_range' : ∀ (n s : Nat), consecutiveB (List.range' s n) = true
  | 0, _ => rfl
  | 1, _ => rfl
  | n + 2, s => by
      have ih := consecutiveB_range' (n + 1) (s + 1)
      rw [List.range'_succ] at ih
      rw [List.range'_succ, List.range'_succ]
      show (decide (s + 1 = s + 1) && consecutiveB ((s + 1) :: List.range' (s + 1 + 1) n)) = true
      rw [ih]
      simp

theorem constOpsFrom_get {F : Type} (regions : List Nat) (cc : Col) :
    ∀ (p : List (F × Cell)) (base i : Nat) (hi : i < p.length),
      (constOpsFrom regions cc base p).get? (2 * i) =
        some (.assignFixed cc.index (base + i) (p.get ⟨i, hi⟩).1)
      ∧ (constOpsFrom regions cc base p).get? (2 * i + 1) =
        some (.copy cc (base + i) (p.get ⟨i, hi⟩).2.column
          (regions.getD (p.get ⟨i, hi⟩).2.region_index 0 + (p.get ⟨i, hi⟩).2.row_offset))
  | (v, cell) :: p', base, 0, _ => by
      constructor <;> simp [constOpsFrom]
  | (v, cell) :: p', base, i + 1, hi => by
      have hi' : i < p'.length := Nat.lt_of_succ_lt_succ (by simpa using hi)
      have ih := constOpsFrom_get regions cc p' (base + 1) i hi'
      have h2 : 2 * (i + 1) = 2 * i + 1 + 1 := by omega
      have harith : base + 1 + i = base + (i + 1) := by omega
      rw [h2]
      constructor
      · show (SinkOp.assignFixed cc.index base v ::
            SinkOp.copy cc base cell.column
              (regions.getD cell.region_index 0 + cell.row_offset) ::
            constOpsFrom regions cc (base + 1) p').get? (2 * i + 1 + 1) = _
        rw [List.get?_cons_succ, List.get?_cons_succ, ih.1, harith]
        rfl
      · show (SinkOp.assignFixed cc.index base v ::
            SinkOp.copy cc base cell.column
              (regions.getD cell.region_index 0 + cell.row_offset) ::
            constOpsFrom regions cc (base + 1) p').get? (2 * i + 1 + 1 + 1) = _
        rw [List.get?_cons_succ, List.get?_cons_succ, ih.2, harith]
        rfl

/-- Counterexample to C3 as stated: two sequential `assign_region` calls on
a layouter with one constants column; the second region's shape touches
the constants column, so its three fixed rows advance the shared counter
and the two constant rows consumed are 0 and 4 — not consecutive rows of
the shared column. -/
theorem c3_consecutive_rows_counterexample :
    (runSeq exConstSt [exBodyA, exBodyB]).err = none
    ∧ constRows (runSeq exConstSt [exBodyA, exBodyB]).constOps 0 = [0, 4]
    ∧ consecutiveB (constRows (runSeq exConstSt [exBodyA, exBodyB]).constOps 0) =
        false := by
  refine ⟨by decide, by decide, by decide⟩

/-- C3 (amended): when at least one constants column is configured, the
pending entries are resolved in order — the `i`-th entry's value is written
into the first configured constants column at row `counter + i`, one
equality constraint is issued between that row and the entry's target cell
resolved via the region-start sequence, and the counter (the occupancy
entry of that column) finishes at `counter + k` after `k` entries; across
regions the constant rows consumed are consecutive rows of the shared
column provided no region's shape touches that column (a region touching
it advances the counter past its own rows, leaving a gap). -/
theorem c3_constants_written_in_order {F : Type} (st : Layouter F)
    (cc : Col) (cs : List Col) (bodies : List (List (RegionOp F)))
    (hcc : st.constants = cc :: cs)
    (havoid : ∀ b ∈ bodies, RegionColumn.col cc ∉ shapeColumns b)
    (hcells : CellsBound st.regions.length bodies) :
    (∀ (p : List (F × Cell)) (regions : List Nat) (base i : Nat) (hi : i < p.length),
        (constOpsFrom regions cc base p).get? (2 * i) =
          some (.assignFixed cc.index (base + i) (p.get ⟨i, hi⟩).1)
        ∧ (constOpsFrom regions cc base p).get? (2 * i + 1) =
          some (.copy cc (base + i) (p.get ⟨i, hi⟩).2.column
            (regions.getD (p.get ⟨i, hi⟩).2.region_index 0 +
              (p.get ⟨i, hi⟩).2.row_offset)))
    ∧ constRows (runSeq st bodies).constOps cc.index =
        List.range' (lookupCol st.columns (.col cc))
          (pendingAll st.regions.length bodies).length
    ∧ consecutiveB (constRows (runSeq st bodies).constOps cc.index) = true
    ∧ lookupCol (runSeq st bodies).state.columns (.col cc) =
        lookupCol st.columns (.col cc) +
          (pendingAll st.regions.length bodies).length := by
  obtain ⟨_, _, _, _, s5, s6⟩ := runSeq_deferred cc cs bodies st hcc havoid hcells
  refine ⟨fun p regions base i hi => constOpsFrom_get regions cc p base i hi,
    ?_, ?_, s5⟩
  · rw [s6, constRows_constOpsFrom]
  · rw [s6, constRows_constOpsFrom, consecutiveB_range']

/-- Witness for the amended C3 at a concrete input. -/
theorem c3_constants_written_in_order_witness :
    exConstSt.constants = Col.mk .fixed 0 :: []
    ∧ ((∀ (p : List (Int × Cell)) (regions : List Nat) (base i : Nat)
          (hi : i < p.length),
        (constOpsFrom regions ⟨.fixed, 0⟩ base p).get? (2 * i) =
          some (.assignFixed (Col.mk .fixed 0).index (base + i) (p.get ⟨i, hi⟩).1)
        ∧ (constOpsFrom regions ⟨.fixed, 0⟩ base p).get? (2 * i + 1) =
          some (.copy ⟨.fixed, 0⟩ (base + i) (p.get ⟨i, hi⟩).2.column
            (regions.getD (p.get ⟨i, hi⟩).2.region_index 0 +
              (p.get ⟨i, hi⟩).2.row_offset)))
      ∧ constRows (runSeq exConstSt [exBodyA, exBodyPlain]).constOps
          (Col.mk .fixed 0).index =
        List.range' (lookupCol exConstSt.columns (.col ⟨.fixed, 0⟩))
          (pendingAll exConstSt.regions.length [exBodyA, exBodyPlain]).length
      ∧ consecutiveB (constRows (runSeq exConstSt [exBodyA, exBodyPlain]).constOps
          (Col.mk .fixed 0).index) = true
      ∧ lookupCol (runSeq exConstSt [exBodyA, exBodyPlain]).state.columns
          (.col ⟨.fixed, 0⟩) =
        lookupCol exConstSt.columns (.col ⟨.fixed, 0⟩) +
          (pendingAll exConstSt.regions.length [exBodyA, exBodyPlain]).length) :=
  ⟨rfl,
   c3_constants_written_in_order exConstSt ⟨.fixed, 0⟩ [] [exBodyA, exBodyPlain]
     rfl (by decide) ⟨by decide, by decide, trivial⟩⟩

end Halo2
